import Mathlib

/-!
Verification of the freePDF core: coordinate transforms, page-range
expression engine, crop-editor geometry, and the render/export task
coordinator.  Every definition is a shallow embedding of the
corresponding TypeScript function; JS numbers are modelled as exact
rationals (`ℚ`), page numbers as integers (`ℤ`), JS strings as
`List Char`, and the fallible asynchronous operations as
`Option`-valued functions.
-/

namespace FreePDF

/-! ## Data model (src/core/types.ts) -/

/-- PDF-space rectangle: `x, y, width, height` in points, bottom-left origin. -/
@[ext]
structure PdfRect where
  x : ℚ
  y : ℚ
  width : ℚ
  height : ℚ
deriving DecidableEq, Repr

/-- Canvas-space rectangle: `x, y, w, h` in device pixels, top-left origin. -/
@[ext]
structure CanvasRect where
  x : ℚ
  y : ℚ
  w : ℚ
  h : ℚ
deriving DecidableEq, Repr

/-- Per-page metadata (`PdfPageMeta` in types.ts).  `rotation` is kept as a
plain integer; the claims under study never inspect it. -/
structure PdfPageMeta where
  index : ℤ
  width : ℚ
  height : ℚ
  rotation : ℤ
  cropBox : Option PdfRect
  mediaBox : PdfRect
deriving DecidableEq, Repr

/-- Viewport information (`ViewportInfo` in types.ts). -/
structure ViewportInfo where
  width : ℚ
  height : ℚ
  scale : ℚ
  offsetX : ℚ
  offsetY : ℚ
deriving DecidableEq, Repr

/-! ## Coordinate transforms (src/core/coords.ts, shown in range.ts bundle) -/

/-- `canvasRectToPdfRect` from coords.ts, verbatim over exact rationals. -/
def canvasRectToPdfRect (rectCanvas : CanvasRect) (page : PdfPageMeta)
    (viewport : ViewportInfo) : PdfRect :=
  let baseBox := page.cropBox.getD page.mediaBox
  let scaleX := baseBox.width / viewport.width
  let scaleY := baseBox.height / viewport.height
  let relativeX := rectCanvas.x
  let relativeY := rectCanvas.y
  let width := rectCanvas.w * scaleX
  let height := rectCanvas.h * scaleY
  let x := baseBox.x + relativeX * scaleX
  let y := baseBox.y + (baseBox.height - (relativeY + rectCanvas.h) * scaleY)
  ⟨x, y, width, height⟩

/-- `pdfRectToCanvasRect` from coords.ts, verbatim over exact rationals. -/
def pdfRectToCanvasRect (rectPdf : PdfRect) (page : PdfPageMeta)
    (viewport : ViewportInfo) : CanvasRect :=
  let baseBox := page.cropBox.getD page.mediaBox
  let scaleX := viewport.width / baseBox.width
  let scaleY := viewport.height / baseBox.height
  let width := rectPdf.width * scaleX
  let height := rectPdf.height * scaleY
  let x := (rectPdf.x - baseBox.x) * scaleX
  let y := (baseBox.height - (rectPdf.y - baseBox.y) - rectPdf.height) * scaleY
  ⟨x, y, width, height⟩

/-- `normalizeRect` from coords.ts. -/
def normalizeRect (rect : CanvasRect) : CanvasRect :=
  { x := if rect.w < 0 then rect.x + rect.w else rect.x
    y := if rect.h < 0 then rect.y + rect.h else rect.y
    w := |rect.w|
    h := |rect.h| }

/-- `calculateViewport` from coords.ts (`padding` defaults to 20 at call
sites; here it is an explicit argument). -/
def calculateViewport (page : PdfPageMeta) (containerWidth containerHeight : ℚ)
    (padding : ℚ) : ViewportInfo :=
  let availableWidth := containerWidth - padding * 2
  let availableHeight := containerHeight - padding * 2
  let scaleX := availableWidth / page.width
  let scaleY := availableHeight / page.height
  let scale := min (min scaleX scaleY) 2
  let width := page.width * scale
  let height := page.height * scale
  let offsetX := (containerWidth - width) / 2
  let offsetY := (containerHeight - height) / 2
  ⟨width, height, scale, offsetX, offsetY⟩

/-- A PDF rect lies fully inside a box. -/
def pdfRectInside (r box : PdfRect) : Prop :=
  box.x ≤ r.x ∧ box.y ≤ r.y ∧ 0 ≤ r.width ∧ 0 ≤ r.height ∧
    r.x + r.width ≤ box.x + box.width ∧ r.y + r.height ≤ box.y + box.height

/-- A canvas rect lies fully inside the viewport. -/
def canvasRectInside (r : CanvasRect) (viewport : ViewportInfo) : Prop :=
  0 ≤ r.x ∧ 0 ≤ r.y ∧ 0 ≤ r.w ∧ 0 ≤ r.h ∧
    r.x + r.w ≤ viewport.width ∧ r.y + r.h ≤ viewport.height

instance (r box : PdfRect) : Decidable (pdfRectInside r box) := by
  unfold pdfRectInside; infer_instance

instance (r : CanvasRect) (viewport : ViewportInfo) :
    Decidable (canvasRectInside r viewport) := by
  unfold canvasRectInside; infer_instance

/-- C1: with an exact (rational) number model the two conversions are exact
mutual inverses whenever the base box and the viewport have positive width
and height: `pdfRectToCanvasRect` followed by `canvasRectToPdfRect` recovers
any PDF rect fully inside the base box, and the opposite composition
recovers any canvas rect fully inside the viewport.  Exact recovery implies
recovery within the claimed `1e-6` relative tolerance. -/
theorem coordinate_roundtrip (page : PdfPageMeta) (viewport : ViewportInfo)
    (r : PdfRect) (c : CanvasRect)
    (hbw : 0 < (page.cropBox.getD page.mediaBox).width)
    (hbh : 0 < (page.cropBox.getD page.mediaBox).height)
    (hvw : 0 < viewport.width) (hvh : 0 < viewport.height)
    (hr : pdfRectInside r (page.cropBox.getD page.mediaBox))
    (hc : canvasRectInside c viewport) :
    canvasRectToPdfRect (pdfRectToCanvasRect r page viewport) page viewport = r ∧
      pdfRectToCanvasRect (canvasRectToPdfRect c page viewport) page viewport = c := by
  have hbw' : (page.cropBox.getD page.mediaBox).width ≠ 0 := ne_of_gt hbw
  have hbh' : (page.cropBox.getD page.mediaBox).height ≠ 0 := ne_of_gt hbh
  have hvw' : viewport.width ≠ 0 := ne_of_gt hvw
  have hvh' : viewport.height ≠ 0 := ne_of_gt hvh
  constructor
  · apply PdfRect.ext <;>
      · simp only [canvasRectToPdfRect, pdfRectToCanvasRect]
        field_simp
        try ring
  · apply CanvasRect.ext <;>
      · simp only [canvasRectToPdfRect, pdfRectToCanvasRect]
        field_simp
        try ring

/-- Witness for `coordinate_roundtrip` at a concrete page, viewport and
pair of rects. -/
theorem coordinate_roundtrip_witness :
    canvasRectToPdfRect
        (pdfRectToCanvasRect ⟨10, 10, 50, 50⟩
          ⟨0, 100, 100, 0, none, ⟨0, 0, 100, 100⟩⟩ ⟨200, 200, 2, 0, 0⟩)
        ⟨0, 100, 100, 0, none, ⟨0, 0, 100, 100⟩⟩ ⟨200, 200, 2, 0, 0⟩ =
        ⟨10, 10, 50, 50⟩ ∧
      pdfRectToCanvasRect
        (canvasRectToPdfRect ⟨20, 20, 40, 40⟩
          ⟨0, 100, 100, 0, none, ⟨0, 0, 100, 100⟩⟩ ⟨200, 200, 2, 0, 0⟩)
        ⟨0, 100, 100, 0, none, ⟨0, 0, 100, 100⟩⟩ ⟨200, 200, 2, 0, 0⟩ =
        ⟨20, 20, 40, 40⟩ :=
  coordinate_roundtrip ⟨0, 100, 100, 0, none, ⟨0, 0, 100, 100⟩⟩ ⟨200, 200, 2, 0, 0⟩
    ⟨10, 10, 50, 50⟩ ⟨20, 20, 40, 40⟩ (by norm_num) (by norm_num) (by norm_num)
    (by norm_num) (by norm_num [pdfRectInside]) (by norm_num [canvasRectInside])

/-- C10: `normalizeRect` always yields non-negative `w` and `h`, and is
idempotent. -/
theorem normalizeRect_nonneg_idem (r : CanvasRect) :
    0 ≤ (normalizeRect r).w ∧ 0 ≤ (normalizeRect r).h ∧
      normalizeRect (normalizeRect r) = normalizeRect r := by
  refine ⟨abs_nonneg _, abs_nonneg _, ?_⟩
  apply CanvasRect.ext <;>
    simp [normalizeRect, abs_abs, not_lt.mpr (abs_nonneg r.w), not_lt.mpr (abs_nonneg r.h)]

/-- C8: the viewport-fitting scale is
`min (min ((cw - 2p)/page.width) ((ch - 2p)/page.height)) 2`, hence never
exceeds 2; and for a 10×10-point page in a 2000×2000 container with the
default padding 20 the scale is exactly 2. -/
theorem calculateViewport_scale_cap (page : PdfPageMeta)
    (containerWidth containerHeight padding : ℚ) :
    (calculateViewport page containerWidth containerHeight padding).scale =
        min (min ((containerWidth - padding * 2) / page.width)
          ((containerHeight - padding * 2) / page.height)) 2 ∧
      (calculateViewport page containerWidth containerHeight padding).scale ≤ 2 ∧
      (calculateViewport ⟨0, 10, 10, 0, none, ⟨0, 0, 10, 10⟩⟩ 2000 2000 20).scale = 2 := by
  refine ⟨rfl, min_le_right _ _, ?_⟩
  simp only [calculateViewport]
  norm_num

/-! ## Crop overlay adjustment (src/components/CropOverlay.tsx) -/

/-- The nine drag handles of the crop overlay. -/
inductive ResizeHandle
  | nw | n | ne | e | se | s | sw | w | move
deriving DecidableEq, Repr

/-- The `switch (dragHandle)` block of `handleMouseMove` in CropOverlay.tsx:
how a drag delta modifies the rectangle captured at mouse-down. -/
def applyHandle (handle : ResizeHandle) (rect : CanvasRect)
    (deltaX deltaY : ℚ) : CanvasRect :=
  match handle with
  | .nw => { rect with x := rect.x + deltaX, y := rect.y + deltaY,
                       w := rect.w - deltaX, h := rect.h - deltaY }
  | .n => { rect with y := rect.y + deltaY, h := rect.h - deltaY }
  | .ne => { rect with y := rect.y + deltaY, w := rect.w + deltaX,
                       h := rect.h - deltaY }
  | .e => { rect with w := rect.w + deltaX }
  | .se => { rect with w := rect.w + deltaX, h := rect.h + deltaY }
  | .s => { rect with h := rect.h + deltaY }
  | .sw => { rect with x := rect.x + deltaX, w := rect.w - deltaX,
                       h := rect.h + deltaY }
  | .w => { rect with x := rect.x + deltaX, w := rect.w - deltaX }
  | .move => { rect with x := rect.x + deltaX, y := rect.y + deltaY }

/-- The clamping step of `handleMouseMove` in CropOverlay.tsx (the four
sequential assignments; note `w`/`h` are clamped against the already
clamped `x`/`y`). -/
def clampToViewport (rect : CanvasRect) (viewport : ViewportInfo) : CanvasRect :=
  let x := max 0 (min rect.x (viewport.width - 10))
  let y := max 0 (min rect.y (viewport.height - 10))
  let w := max 10 (min rect.w (viewport.width - x))
  let h := max 10 (min rect.h (viewport.height - y))
  ⟨x, y, w, h⟩

/-- `handleMouseMove` of CropOverlay.tsx: the canvas rectangle handed to
`canvasRectToPdfRect` and published via `onUpdate`. -/
def cropOverlayMouseMove (dragStartRect : CanvasRect) (handle : ResizeHandle)
    (deltaX deltaY : ℚ) (viewport : ViewportInfo) : CanvasRect :=
  clampToViewport (applyHandle handle dragStartRect deltaX deltaY) viewport

/-- C7: for every starting rect, handle and pointer delta, the adjusted
canvas rectangle published by the crop editor stays inside the viewport and
respects the 10-pixel minimum size, provided the viewport itself is at
least 10 pixels in each dimension. -/
theorem cropOverlay_adjust_invariant (dragStartRect : CanvasRect)
    (handle : ResizeHandle) (deltaX deltaY : ℚ) (viewport : ViewportInfo)
    (hw : 10 ≤ viewport.width) (hh : 10 ≤ viewport.height) :
    0 ≤ (cropOverlayMouseMove dragStartRect handle deltaX deltaY viewport).x ∧
      0 ≤ (cropOverlayMouseMove dragStartRect handle deltaX deltaY viewport).y ∧
      (cropOverlayMouseMove dragStartRect handle deltaX deltaY viewport).x +
          (cropOverlayMouseMove dragStartRect handle deltaX deltaY viewport).w ≤
        viewport.width ∧
      (cropOverlayMouseMove dragStartRect handle deltaX deltaY viewport).y +
          (cropOverlayMouseMove dragStartRect handle deltaX deltaY viewport).h ≤
        viewport.height ∧
      10 ≤ (cropOverlayMouseMove dragStartRect handle deltaX deltaY viewport).w ∧
      10 ≤ (cropOverlayMouseMove dragStartRect handle deltaX deltaY viewport).h := by
  have key : ∀ rect : CanvasRect,
      0 ≤ (clampToViewport rect viewport).x ∧
        0 ≤ (clampToViewport rect viewport).y ∧
        (clampToViewport rect viewport).x + (clampToViewport rect viewport).w ≤
          viewport.width ∧
        (clampToViewport rect viewport).y + (clampToViewport rect viewport).h ≤
          viewport.height ∧
        10 ≤ (clampToViewport rect viewport).w ∧
        10 ≤ (clampToViewport rect viewport).h := by
    intro rect
    simp only [clampToViewport]
    have hx0 : (0 : ℚ) ≤ max 0 (min rect.x (viewport.width - 10)) := le_max_left _ _
    have hy0 : (0 : ℚ) ≤ max 0 (min rect.y (viewport.height - 10)) := le_max_left _ _
    have hx1 : max 0 (min rect.x (viewport.width - 10)) ≤ viewport.width - 10 :=
      max_le (by linarith) (min_le_right _ _)
    have hy1 : max 0 (min rect.y (viewport.height - 10)) ≤ viewport.height - 10 :=
      max_le (by linarith) (min_le_right _ _)
    refine ⟨hx0, hy0, ?_, ?_, le_max_left _ _, le_max_left _ _⟩
    · have : max 10 (min rect.w (viewport.width - max 0 (min rect.x (viewport.width - 10)))) ≤
          viewport.width - max 0 (min rect.x (viewport.width - 10)) :=
        max_le (by linarith) (min_le_right _ _)
      linarith
    · have : max 10 (min rect.h (viewport.height - max 0 (min rect.y (viewport.height - 10)))) ≤
          viewport.height - max 0 (min rect.y (viewport.height - 10)) :=
        max_le (by linarith) (min_le_right _ _)
      linarith
  exact key (applyHandle handle dragStartRect deltaX deltaY)

/-- Witness for `cropOverlay_adjust_invariant` at a concrete drag. -/
theorem cropOverlay_adjust_invariant_witness :
    0 ≤ (cropOverlayMouseMove ⟨5, 5, 30, 30⟩ ResizeHandle.se 1000 (-200)
          ⟨200, 100, 1, 0, 0⟩).x ∧
      0 ≤ (cropOverlayMouseMove ⟨5, 5, 30, 30⟩ ResizeHandle.se 1000 (-200)
            ⟨200, 100, 1, 0, 0⟩).y ∧
      (cropOverlayMouseMove ⟨5, 5, 30, 30⟩ ResizeHandle.se 1000 (-200)
            ⟨200, 100, 1, 0, 0⟩).x +
          (cropOverlayMouseMove ⟨5, 5, 30, 30⟩ ResizeHandle.se 1000 (-200)
            ⟨200, 100, 1, 0, 0⟩).w ≤ (200 : ℚ) ∧
      (cropOverlayMouseMove ⟨5, 5, 30, 30⟩ ResizeHandle.se 1000 (-200)
            ⟨200, 100, 1, 0, 0⟩).y +
          (cropOverlayMouseMove ⟨5, 5, 30, 30⟩ ResizeHandle.se 1000 (-200)
            ⟨200, 100, 1, 0, 0⟩).h ≤ (100 : ℚ) ∧
      10 ≤ (cropOverlayMouseMove ⟨5, 5, 30, 30⟩ ResizeHandle.se 1000 (-200)
            ⟨200, 100, 1, 0, 0⟩).w ∧
      10 ≤ (cropOverlayMouseMove ⟨5, 5, 30, 30⟩ ResizeHandle.se 1000 (-200)
            ⟨200, 100, 1, 0, 0⟩).h :=
  cropOverlay_adjust_invariant ⟨5, 5, 30, 30⟩ ResizeHandle.se 1000 (-200)
    ⟨200, 100, 1, 0, 0⟩ (by norm_num) (by norm_num)

/-! ## Crop-definition drag release (PdfCanvas component, src/unnamed/part_002) -/

/-- A crop draft held in project state. -/
structure CropDraft where
  page : ℤ
  rect : PdfRect
deriving DecidableEq, Repr

/-- The component state touched by `handleMouseUp` in the canvas component. -/
structure CanvasAreaState where
  isDragging : Bool
  dragStart : Option (ℚ × ℚ)
  dragRect : Option CanvasRect
  cropDraft : Option CropDraft
deriving DecidableEq, Repr

/-- `handleMouseUp` of the canvas component: commits a `CropDraft` only when
the normalized drag rectangle is at least 10 pixels in both dimensions;
otherwise the drag state is discarded and the draft is untouched. -/
def canvasMouseUp (st : CanvasAreaState) (page : Option PdfPageMeta)
    (viewport : Option ViewportInfo) (currentPage : Option ℤ) : CanvasAreaState :=
  match st.isDragging, st.dragRect, page, viewport, currentPage with
  | true, some dragRect, some pg, some vp, some cur =>
    let normalized := normalizeRect dragRect
    if normalized.w < 10 ∨ normalized.h < 10 then
      { st with isDragging := false, dragStart := none, dragRect := none }
    else
      { isDragging := false
        dragStart := none
        dragRect := none
        cropDraft := some ⟨cur, canvasRectToPdfRect normalized pg vp⟩ }
  | _, _, _, _, _ => st

/-- C9: a completed drag whose normalized rectangle is below the 10-pixel
minimum in either axis does not commit a crop draft: the drag state is
discarded and `cropDraft` stays unset. -/
theorem canvasMouseUp_rejects_small (st : CanvasAreaState)
    (pg : PdfPageMeta) (vp : ViewportInfo) (cur : ℤ) (dragRect : CanvasRect)
    (hdrag : st.isDragging = true) (hrect : st.dragRect = some dragRect)
    (hdraft : st.cropDraft = none)
    (hsmall : (normalizeRect dragRect).w < 10 ∨ (normalizeRect dragRect).h < 10) :
    (canvasMouseUp st (some pg) (some vp) (some cur)).cropDraft = none ∧
      (canvasMouseUp st (some pg) (some vp) (some cur)).dragRect = none ∧
      (canvasMouseUp st (some pg) (some vp) (some cur)).isDragging = false := by
  rcases st with ⟨d, ds, dr, cd⟩
  simp only at hdrag hrect hdraft
  subst hdrag hrect hdraft
  have hred : canvasMouseUp ⟨true, ds, some dragRect, none⟩ (some pg) (some vp)
        (some cur) =
      if (normalizeRect dragRect).w < 10 ∨ (normalizeRect dragRect).h < 10 then
        { isDragging := false, dragStart := none, dragRect := none,
          cropDraft := none }
      else
        { isDragging := false, dragStart := none, dragRect := none,
          cropDraft :=
            some ⟨cur, canvasRectToPdfRect (normalizeRect dragRect) pg vp⟩ } := rfl
  rw [hred, if_pos hsmall]
  exact ⟨rfl, rfl, rfl⟩

/-- Witness for `canvasMouseUp_rejects_small`: a drag producing `w = 5`,
`h = 20` is rejected. -/
theorem canvasMouseUp_rejects_small_witness :
    (canvasMouseUp ⟨true, some (0, 0), some ⟨0, 0, 5, 20⟩, none⟩
          (some ⟨0, 100, 100, 0, none, ⟨0, 0, 100, 100⟩⟩)
          (some ⟨200, 200, 2, 0, 0⟩) (some 0)).cropDraft = none ∧
      (canvasMouseUp ⟨true, some (0, 0), some ⟨0, 0, 5, 20⟩, none⟩
          (some ⟨0, 100, 100, 0, none, ⟨0, 0, 100, 100⟩⟩)
          (some ⟨200, 200, 2, 0, 0⟩) (some 0)).dragRect = none ∧
      (canvasMouseUp ⟨true, some (0, 0), some ⟨0, 0, 5, 20⟩, none⟩
          (some ⟨0, 100, 100, 0, none, ⟨0, 0, 100, 100⟩⟩)
          (some ⟨200, 200, 2, 0, 0⟩) (some 0)).isDragging = false :=
  canvasMouseUp_rejects_small ⟨true, some (0, 0), some ⟨0, 0, 5, 20⟩, none⟩
    ⟨0, 100, 100, 0, none, ⟨0, 0, 100, 100⟩⟩ ⟨200, 200, 2, 0, 0⟩
    0 ⟨0, 0, 5, 20⟩ rfl rfl rfl (by left; norm_num [normalizeRect])

/-! ## Task coordinator (src/core/workerManager.ts, src/workers/render.worker.ts)

The asynchronous rendering primitives are abstracted as `Option`-valued
functions (`none` models a rejected promise); the worker boundary is
modelled by an outcome oracle saying what a dispatched request would
produce: a resolved value, or any of the failure modes (dispatch failure,
worker-creation failure, timeout, worker-reported error), all of which
surface as a caught exception in the manager. -/

/-- Raster/vector export formats of a `RenderTask`. -/
inductive ImgFormat
  | png | jpeg | svg
deriving DecidableEq, Repr

/-- `RenderTask.type` in types.ts. -/
inductive TaskType
  | thumbnail | canvasTask | exportTask
deriving DecidableEq, Repr

/-- `RenderTask` from types.ts. -/
structure RenderTask where
  id : String
  type : TaskType
  page : ℤ
  scale : ℚ
  format : Option ImgFormat
  quality : Option ℚ
deriving DecidableEq, Repr

/-- The rendering primitives of one execution context (pdfLoader.ts on the
foreground, pdf.js inside the worker): `renderPageToSVG`,
`renderPageToImageBitmap`, and the page count obtained from
`getPdfDocument`.  `none` models a rejected promise. -/
structure RenderPrims (α : Type) where
  renderToSVG : ℤ → ℚ → Option α
  renderToImageBitmap : ℤ → ℚ → Option α
  docPageCount : Option ℤ

/-- Per-task dispatch of `WorkerManager.exportPagesLocally`: SVG tasks go to
`renderPageToSVG`, everything else to `renderPageToImageBitmap`. -/
def localTaskRender (P : RenderPrims α) (task : RenderTask) : Option α :=
  if task.format = some ImgFormat.svg then P.renderToSVG task.page task.scale
  else P.renderToImageBitmap task.page task.scale

/-- Per-task dispatch inside `renderMultiplePages` of render.worker.ts:
SVG only for tasks with `type === 'export' && format === 'svg'`. -/
def workerTaskRender (W : RenderPrims α) (task : RenderTask) : Option α :=
  if task.type = TaskType.exportTask ∧ task.format = some ImgFormat.svg then
    W.renderToSVG task.page task.scale
  else W.renderToImageBitmap task.page task.scale

/-- `WorkerManager.exportPagesLocally`: render the tasks sequentially in
task order, pushing each result; a rejection aborts the batch. -/
def exportPagesLocally (P : RenderPrims α) : List RenderTask → Option (List α)
  | [] => some []
  | task :: rest =>
    match localTaskRender P task, exportPagesLocally P rest with
    | some v, some vs => some (v :: vs)
    | _, _ => none

/-- `renderMultiplePages` of render.worker.ts: render the tasks sequentially
in task order; any per-task error is re-thrown, aborting the batch. -/
def renderMultiplePages (W : RenderPrims α) : List RenderTask → Option (List α)
  | [] => some []
  | task :: rest =>
    match workerTaskRender W task, renderMultiplePages W rest with
    | some v, some vs => some (v :: vs)
    | _, _ => none

/-- The `format` argument of `WorkerManager.renderPage`. -/
inductive RenderFormat
  | bitmap | svg
deriving DecidableEq, Repr

/-- `WorkerManager.renderPageLocally`. -/
def renderPageLocally (P : RenderPrims α) (pageIndex : ℤ) (scale : ℚ)
    (format : RenderFormat) : Option α :=
  if format = RenderFormat.svg then P.renderToSVG pageIndex scale
  else P.renderToImageBitmap pageIndex scale

/-- The `{ pageCount, loaded }` record of `WorkerManager.loadDocument`. -/
structure LoadInfo where
  pageCount : ℤ
  loaded : Bool
deriving DecidableEq, Repr

/-- `WorkerManager.loadDocumentLocally`. -/
def loadDocumentLocally (P : RenderPrims α) : Option LoadInfo :=
  P.docPageCount.map fun n => ⟨n, true⟩

/-- The mutable flags of a `WorkerManager` instance that govern routing. -/
structure WMState where
  workerSupported : Bool
  workerFailed : Bool
deriving DecidableEq, Repr

/-- What a dispatched worker request would produce: a resolved value, or
any failure mode (`sendMessage` rejection, timeout, worker error). -/
inductive WorkerOutcome (β : Type)
  | ok (value : β)
  | fail
deriving DecidableEq, Repr

/-- The observable result of one `WorkerManager` call. -/
inductive WMResult (α : Type)
  | rendered (r : Option α)
  | exported (rs : Option (List α))
  | loaded (info : Option LoadInfo)
deriving DecidableEq, Repr

/-- One call on the manager, bundled with the oracle for what the worker
would reply if the call were dispatched to it. -/
inductive WMRequest (α : Type)
  | render (pageIndex : ℤ) (scale : ℚ) (format : RenderFormat)
      (outcome : WorkerOutcome α)
  | exportPages (tasks : List RenderTask) (outcome : WorkerOutcome (List α))
  | load (outcome : WorkerOutcome LoadInfo)

/-- Result of executing one call: the successor state, the value returned
to the caller, and whether the worker was attempted / delivered it. -/
structure WMStep (α : Type) where
  state : WMState
  result : WMResult α
  attemptedWorker : Bool
  usedWorker : Bool
deriving DecidableEq, Repr

/-- `tasks.some(task => task.format === 'svg')` in `exportPages`. -/
def requiresDom (tasks : List RenderTask) : Bool :=
  tasks.any fun task => decide (task.format = some ImgFormat.svg)

/-- One call on a `WorkerManager`: the routing logic of `renderPage`,
`exportPages` and `loadDocument` (worker guard, `catch` setting
`workerFailed` and re-running locally, SVG batches forced local). -/
def wmStep (P : RenderPrims α) (s : WMState) : WMRequest α → WMStep α
  | .render pageIndex scale format outcome =>
    if s.workerSupported = false ∨ s.workerFailed = true then
      ⟨s, .rendered (renderPageLocally P pageIndex scale format), false, false⟩
    else
      match outcome with
      | .ok v => ⟨s, .rendered (some v), true, true⟩
      | .fail => ⟨{ s with workerFailed := true },
          .rendered (renderPageLocally P pageIndex scale format), true, false⟩
  | .exportPages tasks outcome =>
    if requiresDom tasks = true then
      ⟨s, .exported (exportPagesLocally P tasks), false, false⟩
    else if s.workerSupported = false ∨ s.workerFailed = true then
      ⟨s, .exported (exportPagesLocally P tasks), false, false⟩
    else
      match outcome with
      | .ok vs => ⟨s, .exported (some vs), true, true⟩
      | .fail => ⟨{ s with workerFailed := true },
          .exported (exportPagesLocally P tasks), true, false⟩
  | .load outcome =>
    if s.workerSupported = false ∨ s.workerFailed = true then
      ⟨s, .loaded (loadDocumentLocally P), false, false⟩
    else
      match outcome with
      | .ok info => ⟨s, .loaded (some info), true, true⟩
      | .fail => ⟨{ s with workerFailed := true },
          .loaded (loadDocumentLocally P), true, false⟩

/-- The value a call would produce when executed purely on the foreground
path. -/
def localResultOf (P : RenderPrims α) : WMRequest α → WMResult α
  | .render pageIndex scale format _ =>
    .rendered (renderPageLocally P pageIndex scale format)
  | .exportPages tasks _ => .exported (exportPagesLocally P tasks)
  | .load _ => .loaded (loadDocumentLocally P)

/-- Execute a sequence of calls, threading the manager state. -/
def wmRun (P : RenderPrims α) (s : WMState) :
    List (WMRequest α) → List (WMRequest α × WMStep α)
  | [] => []
  | r :: rs => (r, wmStep P s r) :: wmRun P (wmStep P s r).state rs

theorem wmStep_of_failed (P : RenderPrims α) (s : WMState)
    (h : s.workerFailed = true) (r : WMRequest α) :
    wmStep P s r = ⟨s, localResultOf P r, false, false⟩ := by
  cases r <;> simp [wmStep, h, localResultOf]

theorem wmRun_of_failed (P : RenderPrims α) (s : WMState)
    (h : s.workerFailed = true) (rs : List (WMRequest α)) :
    ∀ pr ∈ wmRun P s rs,
      pr.2.attemptedWorker = false ∧ pr.2.result = localResultOf P pr.1 := by
  induction rs generalizing s with
  | nil => intro pr hpr; cases hpr
  | cons r rs ih =>
    intro pr hpr
    rw [wmRun, wmStep_of_failed P s h r] at hpr
    rcases List.mem_cons.mp hpr with hpr | hpr
    · subst hpr; exact ⟨rfl, rfl⟩
    · exact ih s h pr hpr

/-- C2: if the first call on a healthy manager attempts the worker and the
worker path fails, the call is re-executed on the calling thread (its
result is exactly the foreground result), the manager becomes permanently
degraded, and every later call in the same instance runs entirely on the
foreground path without ever attempting the worker again. -/
theorem workerManager_fallback_sticky (P : RenderPrims α) (s : WMState)
    (r : WMRequest α) (rs : List (WMRequest α))
    (hsup : s.workerSupported = true) (hfail : s.workerFailed = false)
    (hattempt : (wmStep P s r).attemptedWorker = true)
    (hnotused : (wmStep P s r).usedWorker = false) :
    (wmStep P s r).result = localResultOf P r ∧
      (wmStep P s r).state.workerFailed = true ∧
      ∀ pr ∈ wmRun P (wmStep P s r).state rs,
        pr.2.attemptedWorker = false ∧ pr.2.result = localResultOf P pr.1 := by
  have hstep : wmStep P s r =
      ⟨{ s with workerFailed := true }, localResultOf P r, true, false⟩ := by
    cases r with
    | render pageIndex scale format outcome =>
      cases outcome with
      | ok v =>
        exfalso
        simp [wmStep, hsup, hfail] at hnotused
      | fail => simp [wmStep, hsup, hfail, localResultOf]
    | exportPages tasks outcome =>
      by_cases hdom : requiresDom tasks = true
      · exfalso
        simp [wmStep, hdom] at hattempt
      · cases outcome with
        | ok vs =>
          exfalso
          simp [wmStep, hsup, hfail, hdom] at hnotused
        | fail => simp [wmStep, hsup, hfail, hdom, localResultOf]
    | load outcome =>
      cases outcome with
      | ok info =>
        exfalso
        simp [wmStep, hsup, hfail] at hnotused
      | fail => simp [wmStep, hsup, hfail, localResultOf]
  rw [hstep]
  exact ⟨rfl, rfl, wmRun_of_failed P _ rfl rs⟩

/-- Witness for `workerManager_fallback_sticky`: a dispatch failure on the
first render call, followed by an export and a load call. -/
theorem workerManager_fallback_sticky_witness :
    (wmStep (α := ℚ) ⟨fun _ _ => some 7, fun _ _ => some 3, some 5⟩ ⟨true, false⟩
          (WMRequest.render 0 1 RenderFormat.bitmap WorkerOutcome.fail)).result =
        localResultOf ⟨fun _ _ => some 7, fun _ _ => some 3, some 5⟩
          (WMRequest.render 0 1 RenderFormat.bitmap WorkerOutcome.fail) ∧
      (wmStep (α := ℚ) ⟨fun _ _ => some 7, fun _ _ => some 3, some 5⟩ ⟨true, false⟩
          (WMRequest.render 0 1 RenderFormat.bitmap WorkerOutcome.fail)).state.workerFailed =
        true ∧
      ∀ pr ∈ wmRun (α := ℚ) ⟨fun _ _ => some 7, fun _ _ => some 3, some 5⟩
          (wmStep (α := ℚ) ⟨fun _ _ => some 7, fun _ _ => some 3, some 5⟩ ⟨true, false⟩
            (WMRequest.render 0 1 RenderFormat.bitmap WorkerOutcome.fail)).state
          [WMRequest.load (WorkerOutcome.ok ⟨5, true⟩)],
        pr.2.attemptedWorker = false ∧
          pr.2.result =
            localResultOf (α := ℚ) ⟨fun _ _ => some 7, fun _ _ => some 3, some 5⟩ pr.1 :=
  workerManager_fallback_sticky ⟨fun _ _ => some 7, fun _ _ => some 3, some 5⟩
    ⟨true, false⟩ (WMRequest.render 0 1 RenderFormat.bitmap WorkerOutcome.fail)
    [WMRequest.load (WorkerOutcome.ok ⟨5, true⟩)] rfl rfl rfl rfl

/-- C5: a batch containing at least one SVG task is always executed on the
calling thread via `exportPagesLocally` — the worker is never attempted and
the manager state is unchanged — even when the worker is supported and has
not failed. -/
theorem exportPages_svg_forces_foreground (P : RenderPrims α) (s : WMState)
    (tasks : List RenderTask) (outcome : WorkerOutcome (List α))
    (hsvg : ∃ t ∈ tasks, t.format = some ImgFormat.svg) :
    wmStep P s (WMRequest.exportPages tasks outcome) =
      ⟨s, WMResult.exported (exportPagesLocally P tasks), false, false⟩ := by
  have hdom : requiresDom tasks = true := by
    rcases hsvg with ⟨t, ht, hfmt⟩
    exact List.any_eq_true.mpr ⟨t, ht, decide_eq_true hfmt⟩
  simp [wmStep, hdom]

/-- Witness for `exportPages_svg_forces_foreground`: a healthy manager and a
mixed png/svg batch. -/
theorem exportPages_svg_forces_foreground_witness :
    wmStep (α := ℚ) ⟨fun _ _ => some 7, fun _ _ => some 3, some 5⟩ ⟨true, false⟩
        (WMRequest.exportPages
          [⟨"a", TaskType.exportTask, 0, 1, some ImgFormat.png, none⟩,
           ⟨"b", TaskType.exportTask, 1, 1, some ImgFormat.svg, none⟩]
          (WorkerOutcome.ok [3, 7])) =
      ⟨⟨true, false⟩,
        WMResult.exported
          (exportPagesLocally ⟨fun _ _ => some 7, fun _ _ => some 3, some 5⟩
            [⟨"a", TaskType.exportTask, 0, 1, some ImgFormat.png, none⟩,
             ⟨"b", TaskType.exportTask, 1, 1, some ImgFormat.svg, none⟩]),
        false, false⟩ :=
  exportPages_svg_forces_foreground ⟨fun _ _ => some 7, fun _ _ => some 3, some 5⟩
    ⟨true, false⟩
    [⟨"a", TaskType.exportTask, 0, 1, some ImgFormat.png, none⟩,
     ⟨"b", TaskType.exportTask, 1, 1, some ImgFormat.svg, none⟩]
    (WorkerOutcome.ok [3, 7])
    ⟨⟨"b", TaskType.exportTask, 1, 1, some ImgFormat.svg, none⟩, by simp, rfl⟩

theorem seq_loop_spec (f : RenderTask → Option α)
    (loop : List RenderTask → Option (List α))
    (hnil : loop [] = some [])
    (hcons : ∀ t rest, loop (t :: rest) =
      match f t, loop rest with
      | some v, some vs => some (v :: vs)
      | _, _ => none) :
    ∀ tasks rs, loop tasks = some rs →
      rs.length = tasks.length ∧
        ∀ i (hi : i < tasks.length) (hi' : i < rs.length),
          f (tasks.get ⟨i, hi⟩) = some (rs.get ⟨i, hi'⟩) := by
  intro tasks
  induction tasks with
  | nil =>
    intro rs hrs
    rw [hnil] at hrs
    cases hrs
    exact ⟨rfl, fun i hi => absurd hi (Nat.not_lt_zero i)⟩
  | cons t rest ih =>
    intro rs hrs
    rw [hcons] at hrs
    rcases hv : f t with _ | v <;> rw [hv] at hrs
    · exact absurd hrs (by simp)
    rcases hvs : loop rest with _ | vs <;> rw [hvs] at hrs
    · exact absurd hrs (by simp)
    simp only at hrs
    cases hrs
    obtain ⟨hlen, hget⟩ := ih vs hvs
    refine ⟨by simp [hlen], ?_⟩
    intro i hi hi'
    cases i with
    | zero => simpa using hv
    | succ j =>
      simpa using hget j (Nat.lt_of_succ_lt_succ hi) (Nat.lt_of_succ_lt_succ hi')

/-- C6: a successful batch export returns exactly one result per task, and
the `i`-th result is the rendering of the `i`-th task — on the foreground
path (`exportPagesLocally`, each task dispatched by its format) as well as
on the worker path (`renderMultiplePages`, each task dispatched by its
type/format). -/
theorem exportPages_results_match_task_order (P W : RenderPrims α)
    (tasks : List RenderTask) :
    (∀ rs, exportPagesLocally P tasks = some rs →
        rs.length = tasks.length ∧
          ∀ i (hi : i < tasks.length) (hi' : i < rs.length),
            localTaskRender P (tasks.get ⟨i, hi⟩) = some (rs.get ⟨i, hi'⟩)) ∧
      (∀ rs, renderMultiplePages W tasks = some rs →
        rs.length = tasks.length ∧
          ∀ i (hi : i < tasks.length) (hi' : i < rs.length),
            workerTaskRender W (tasks.get ⟨i, hi⟩) = some (rs.get ⟨i, hi'⟩)) := by
  constructor
  · intro rs hrs
    exact seq_loop_spec (localTaskRender P) (exportPagesLocally P) rfl
      (fun t rest => rfl) tasks rs hrs
  · intro rs hrs
    exact seq_loop_spec (workerTaskRender W) (renderMultiplePages W) rfl
      (fun t rest => rfl) tasks rs hrs

/-- Witness for `exportPages_results_match_task_order`: export tasks for
pages `[3, 1, 2]` on both paths (result equals the page number here). -/
theorem exportPages_results_match_task_order_witness :
    ((3 : ℤ) :: 1 :: [2]).length =
        ([⟨"a", TaskType.exportTask, 3, 1, some ImgFormat.png, none⟩,
          ⟨"b", TaskType.exportTask, 1, 1, some ImgFormat.png, none⟩,
          ⟨"c", TaskType.exportTask, 2, 1, some ImgFormat.png, none⟩] :
            List RenderTask).length ∧
      ∀ i (hi : i < ([⟨"a", TaskType.exportTask, 3, 1, some ImgFormat.png, none⟩,
          ⟨"b", TaskType.exportTask, 1, 1, some ImgFormat.png, none⟩,
          ⟨"c", TaskType.exportTask, 2, 1, some ImgFormat.png, none⟩] :
            List RenderTask).length) (hi' : i < ((3 : ℤ) :: 1 :: [2]).length),
        localTaskRender ⟨fun p _ => some p, fun p _ => some p, some 5⟩
            (([⟨"a", TaskType.exportTask, 3, 1, some ImgFormat.png, none⟩,
               ⟨"b", TaskType.exportTask, 1, 1, some ImgFormat.png, none⟩,
               ⟨"c", TaskType.exportTask, 2, 1, some ImgFormat.png, none⟩] :
                List RenderTask).get ⟨i, hi⟩) =
          some (((3 : ℤ) :: 1 :: [2]).get ⟨i, hi'⟩) :=
  (exportPages_results_match_task_order (α := ℤ)
      ⟨fun p _ => some p, fun p _ => some p, some 5⟩
      ⟨fun p _ => some p, fun p _ => some p, some 5⟩
      [⟨"a", TaskType.exportTask, 3, 1, some ImgFormat.png, none⟩,
       ⟨"b", TaskType.exportTask, 1, 1, some ImgFormat.png, none⟩,
       ⟨"c", TaskType.exportTask, 2, 1, some ImgFormat.png, none⟩]).1
    ((3 : ℤ) :: 1 :: [2]) (by decide)

/-! ## Range expression engine (src/utils/range.ts)

JS strings are modelled as `List Char`; `String.prototype.split`,
`String.prototype.trim` and `parseInt(·, 10)` are embedded below. -/

/-- A JS string as a list of characters. -/
abbrev JSString := List Char

/-- `String.prototype.split` with a single-character separator: splits at
every occurrence, keeping empty segments (`"".split(',') == [""]`). -/
def splitOnChar (sep : Char) (s : JSString) : List JSString :=
  s.foldr
    (fun c acc =>
      if c = sep then [] :: acc
      else
        match acc with
        | [] => [[c]]
        | seg :: segs => (c :: seg) :: segs)
    [[]]

/-- `String.prototype.trim`. -/
def jsTrim (s : JSString) : JSString :=
  ((s.dropWhile Char.isWhitespace).reverse.dropWhile Char.isWhitespace).reverse

/-- Value of a digit run read left to right. -/
def digitsVal (ds : JSString) : ℤ :=
  ds.foldl (fun acc c => acc * 10 + ((c.toNat : ℤ) - 48)) 0

/-- `parseInt(s, 10)`: skip leading whitespace, optional sign, then the
longest leading digit run; `none` (JS `NaN`) when that run is empty. -/
def jsParseInt (s : JSString) : Option ℤ :=
  let s1 := s.dropWhile Char.isWhitespace
  let sign : ℤ := if s1.headD ' ' = '-' then -1 else 1
  let rest := if s1.headD ' ' = '-' ∨ s1.headD ' ' = '+' then s1.drop 1 else s1
  let ds := rest.takeWhile Char.isDigit
  if ds = [] then none else some (sign * digitsVal ds)

/-- The body of the `for (const part of parts)` loop of `parsePageExpr`:
a dash term contributes the clamped inclusive range (with omitted sides
defaulting to `1` / `maxPage`), a bare term contributes its page when it
parses and lies in `[1, maxPage]`; unparsable terms are skipped. -/
def parsePart (maxPage : ℤ) (acc : Finset ℤ) (part : JSString) : Finset ℤ :=
  if '-' ∈ part then
    match (if (((splitOnChar '-' part).map jsTrim).headD []) = [] then some (1 : ℤ)
           else jsParseInt (((splitOnChar '-' part).map jsTrim).headD [])),
        (if ((((splitOnChar '-' part).map jsTrim).drop 1).headD []) = [] then some maxPage
         else jsParseInt ((((splitOnChar '-' part).map jsTrim).drop 1).headD [])) with
    | some a, some b => acc ∪ Finset.Icc (max 1 a) (min maxPage b)
    | _, _ => acc
  else
    match jsParseInt part with
    | some p => if 1 ≤ p ∧ p ≤ maxPage then insert p acc else acc
    | none => acc

/-- `parsePageExpr` from range.ts: split on commas, trim, drop empty parts,
accumulate pages into a set, return it numerically sorted. -/
def parsePageExpr (expr : JSString) (maxPage : ℤ) : List ℤ :=
  if jsTrim expr = [] then []
  else
    Finset.sort (· ≤ ·)
      (((((splitOnChar ',' expr).map jsTrim).filter fun p => !p.isEmpty).foldl
        (parsePart maxPage) ∅))

theorem parsePart_mem_range (maxPage : ℤ) (acc : Finset ℤ) (part : JSString)
    (hacc : ∀ x ∈ acc, 1 ≤ x ∧ x ≤ maxPage) :
    ∀ x ∈ parsePart maxPage acc part, 1 ≤ x ∧ x ≤ maxPage := by
  intro x hx
  rw [parsePart] at hx
  split at hx
  · split at hx
    · rcases Finset.mem_union.mp hx with h | h
      · exact hacc x h
      · rw [Finset.mem_Icc] at h
        exact ⟨le_trans (le_max_left _ _) h.1, le_trans h.2 (min_le_left _ _)⟩
    · exact hacc x hx
  · split at hx
    · split_ifs at hx with hcond
      · rcases Finset.mem_insert.mp hx with rfl | h
        · exact hcond
        · exact hacc x h
      · exact hacc x hx
    · exact hacc x hx

theorem foldl_parsePart_mem_range (maxPage : ℤ) (parts : List JSString) :
    ∀ acc : Finset ℤ, (∀ x ∈ acc, 1 ≤ x ∧ x ≤ maxPage) →
      ∀ x ∈ parts.foldl (parsePart maxPage) acc, 1 ≤ x ∧ x ≤ maxPage := by
  induction parts with
  | nil => intro acc hacc; exact hacc
  | cons part rest ih =>
    intro acc hacc
    exact ih (parsePart maxPage acc part) (parsePart_mem_range maxPage acc part hacc)

/-- The four example expressions of the spec. -/
def exprEx1 : JSString := "1,3,5-8,10-".toList

def exprEx2 : JSString := "-3".toList

def exprEx3 : JSString := "5-".toList

theorem parsePageExpr_sorted_aux (expr : JSString) (maxPage : ℤ) :
    List.Sorted (· < ·) (parsePageExpr expr maxPage) := by
  rw [parsePageExpr]
  split
  · exact List.sorted_nil
  · exact Finset.sort_sorted_lt _

theorem parsePageExpr_example (expr : JSString) (maxPage : ℤ) (L : List ℤ)
    (hne : jsTrim expr ≠ [])
    (hfold : ((((splitOnChar ',' expr).map jsTrim).filter fun p => !p.isEmpty).foldl
        (parsePart maxPage) ∅) = L.toFinset)
    (hnodup : L.Nodup) (hsorted : L.Sorted (· ≤ ·)) :
    parsePageExpr expr maxPage = L := by
  rw [parsePageExpr, if_neg hne, hfold]
  exact (List.toFinset_sort (· ≤ ·) hnodup).mpr hsorted

/-- C3: `parsePageExpr` always returns a strictly ascending (hence
duplicate-free) list of pages lying in `[1, maxPage]`, and matches the four
spec examples, including open-ended ranges and the empty expression. -/
theorem parsePageExpr_contract (expr : JSString) (maxPage : ℤ) :
    List.Sorted (· < ·) (parsePageExpr expr maxPage) ∧
      (∀ p ∈ parsePageExpr expr maxPage, 1 ≤ p ∧ p ≤ maxPage) ∧
      parsePageExpr exprEx1 12 = [1, 3, 5, 6, 7, 8, 10, 11, 12] ∧
      parsePageExpr exprEx2 10 = [1, 2, 3] ∧
      parsePageExpr exprEx3 10 = [5, 6, 7, 8, 9, 10] ∧
      parsePageExpr [] 10 = [] := by
  refine ⟨parsePageExpr_sorted_aux expr maxPage, ?_, ?_, ?_, ?_, rfl⟩
  · intro p hp
    rw [parsePageExpr] at hp
    split at hp
    · cases hp
    · exact foldl_parsePart_mem_range maxPage _ ∅ (by intro x hx; cases hx)
        p ((Finset.mem_sort _).mp hp)
  · exact parsePageExpr_example exprEx1 12 _ (by decide) (by decide) (by decide) (by decide)
  · exact parsePageExpr_example exprEx2 10 _ (by decide) (by decide) (by decide) (by decide)
  · exact parsePageExpr_example exprEx3 10 _ (by decide) (by decide) (by decide) (by decide)

/-! ## Range formatting (`formatPageRange` from range.ts)

`Number.prototype.toString` on the integers appearing here is modelled by
an explicit decimal renderer. -/

/-- The character of a decimal digit. -/
def digitChar (d : ℕ) : Char := Char.ofNat (48 + d)

/-- Decimal digit string of a natural number (most significant first). -/
def natDecimal (n : ℕ) : JSString :=
  if h : n < 10 then [digitChar n]
  else
    have : n / 10 < n := Nat.div_lt_self (by omega) (by norm_num)
    natDecimal (n / 10) ++ [digitChar (n % 10)]
termination_by n

/-- `Number.prototype.toString` for an integer. -/
def intToDecimal (n : ℤ) : JSString :=
  if n < 0 then '-' :: natDecimal n.natAbs else natDecimal n.toNat

/-- One formatted run `start..end`: `"a"` for a singleton, `"a,b"` for a
run of exactly two, `"a-b"` otherwise (the push branches of
`formatPageRange`). -/
def chunkStr (start fin : ℤ) : JSString :=
  if start = fin then intToDecimal start
  else if fin = start + 1 then intToDecimal start ++ ',' :: intToDecimal fin
  else intToDecimal start ++ '-' :: intToDecimal fin

/-- The run-collapsing loop of `formatPageRange` over the sorted tail,
carrying the current run `[start, fin]`. -/
def buildRanges : List ℤ → ℤ → ℤ → List JSString
  | [], start, fin => [chunkStr start fin]
  | x :: rest, start, fin =>
    if x = fin + 1 then buildRanges rest start x
    else chunkStr start fin :: buildRanges rest x x

/-- `Array.prototype.join` with a single-character separator. -/
def joinWith (sep : Char) : List JSString → JSString
  | [] => []
  | [s] => s
  | s :: rest => s ++ sep :: joinWith sep rest

theorem joinWith_singleton (sep : Char) (s : JSString) :
    joinWith sep [s] = s := rfl

theorem joinWith_cons₂ (sep : Char) (s r : JSString) (rest : List JSString) :
    joinWith sep (s :: r :: rest) = s ++ sep :: joinWith sep (r :: rest) := rfl

/-- `formatPageRange` from range.ts: sort ascending, collapse consecutive
runs, render each run, join with commas. -/
def formatPageRange (pages : List ℤ) : JSString :=
  match pages.mergeSort with
  | [] => []
  | x :: rest => joinWith ',' (buildRanges rest x x)

theorem digitChar_toNat {d : ℕ} (hd : d < 10) : (digitChar d).toNat = 48 + d := by
  interval_cases d <;> decide

theorem digitChar_isDigit {d : ℕ} (hd : d < 10) : (digitChar d).isDigit = true := by
  interval_cases d <;> decide

theorem digitChar_not_ws {d : ℕ} (hd : d < 10) : (digitChar d).isWhitespace = false := by
  interval_cases d <;> decide

theorem digitChar_ne_comma {d : ℕ} (hd : d < 10) : digitChar d ≠ ',' := by
  interval_cases d <;> decide

theorem digitChar_ne_dash {d : ℕ} (hd : d < 10) : digitChar d ≠ '-' := by
  interval_cases d <;> decide

theorem digitChar_ne_plus {d : ℕ} (hd : d < 10) : digitChar d ≠ '+' := by
  interval_cases d <;> decide

theorem natDecimal_ne_nil (n : ℕ) : natDecimal n ≠ [] := by
  rw [natDecimal]
  split
  · simp
  · simp

theorem natDecimal_digits (n : ℕ) :
    ∀ c ∈ natDecimal n, ∃ d : ℕ, d < 10 ∧ c = digitChar d := by
  induction n using Nat.strong_induction_on with
  | _ n ih =>
    rw [natDecimal]
    split
    · intro c hc
      rw [List.mem_singleton] at hc
      exact ⟨n, by omega, hc⟩
    · intro c hc
      rcases List.mem_append.mp hc with h | h
      · exact ih (n / 10) (Nat.div_lt_self (by omega) (by norm_num)) c h
      · rw [List.mem_singleton] at h
        exact ⟨n % 10, Nat.mod_lt n (by norm_num), h⟩

theorem digitsVal_append_digit (ds : JSString) (c : Char) :
    digitsVal (ds ++ [c]) = digitsVal ds * 10 + ((c.toNat : ℤ) - 48) := by
  simp [digitsVal, List.foldl_append]

theorem digitsVal_natDecimal (n : ℕ) : digitsVal (natDecimal n) = (n : ℤ) := by
  induction n using Nat.strong_induction_on with
  | _ n ih =>
    rw [natDecimal]
    split
    · next h =>
      simp [digitsVal, digitChar_toNat h]
    · next h =>
      rw [digitsVal_append_digit, ih (n / 10) (Nat.div_lt_self (by omega) (by norm_num)),
        digitChar_toNat (Nat.mod_lt n (by norm_num))]
      push_cast
      omega

theorem natDecimal_char_facts (n : ℕ) : ∀ c ∈ natDecimal n,
    c.isWhitespace = false ∧ c ≠ ',' ∧ c ≠ '-' ∧ c ≠ '+' ∧ c.isDigit = true := by
  intro c hc
  obtain ⟨d, hd, rfl⟩ := natDecimal_digits n c hc
  exact ⟨digitChar_not_ws hd, digitChar_ne_comma hd, digitChar_ne_dash hd,
    digitChar_ne_plus hd, digitChar_isDigit hd⟩

theorem takeWhile_all (p : Char → Bool) (l : JSString) (h : ∀ c ∈ l, p c = true) :
    l.takeWhile p = l := by
  induction l with
  | nil => rfl
  | cons c t ih =>
    rw [List.takeWhile_cons, if_pos (h c (List.mem_cons_self c t)),
      ih fun c hc => h c (List.mem_cons_of_mem _ hc)]

theorem jsParseInt_digits (s : JSString) (hne : s ≠ [])
    (hdig : ∀ c ∈ s, ∃ d : ℕ, d < 10 ∧ c = digitChar d) :
    jsParseInt s = some (digitsVal s) := by
  obtain ⟨c, t, rfl⟩ := List.exists_cons_of_ne_nil hne
  obtain ⟨d, hd, rfl⟩ := hdig _ (List.mem_cons_self _ _)
  have h1 : (digitChar d :: t).dropWhile Char.isWhitespace = digitChar d :: t :=
    List.dropWhile_cons_of_neg (by simp [digitChar_not_ws hd])
  have h2 : (digitChar d :: t).takeWhile Char.isDigit = digitChar d :: t := by
    refine takeWhile_all _ _ fun c hc => ?_
    obtain ⟨e, he, rfl⟩ := hdig c hc
    exact digitChar_isDigit he
  have hsign : ¬(digitChar d = '-' ∨ digitChar d = '+') := by
    push_neg
    exact ⟨digitChar_ne_dash hd, digitChar_ne_plus hd⟩
  rw [jsParseInt]
  simp only [h1, List.headD_cons]
  rw [if_neg (digitChar_ne_dash hd), if_neg hsign, h2,
    if_neg (List.cons_ne_nil _ _), one_mul]

theorem intToDecimal_of_nonneg {n : ℤ} (h : 0 ≤ n) :
    intToDecimal n = natDecimal n.toNat :=
  if_neg (not_lt.mpr h)

theorem intToDecimal_char_facts {n : ℤ} (h : 0 ≤ n) : ∀ c ∈ intToDecimal n,
    c.isWhitespace = false ∧ c ≠ ',' ∧ c ≠ '-' ∧ c ≠ '+' ∧ c.isDigit = true := by
  rw [intToDecimal_of_nonneg h]
  exact natDecimal_char_facts _

theorem intToDecimal_ne_nil {n : ℤ} (h : 0 ≤ n) : intToDecimal n ≠ [] := by
  rw [intToDecimal_of_nonneg h]
  exact natDecimal_ne_nil _

theorem jsParseInt_intToDecimal {n : ℤ} (h : 0 ≤ n) :
    jsParseInt (intToDecimal n) = some n := by
  rw [intToDecimal_of_nonneg h,
    jsParseInt_digits _ (natDecimal_ne_nil _) (natDecimal_digits _),
    digitsVal_natDecimal, Int.toNat_of_nonneg h]

theorem splitOnChar_nil (sep : Char) : splitOnChar sep [] = [[]] := rfl

theorem splitOnChar_cons (sep c : Char) (s : JSString) :
    splitOnChar sep (c :: s) =
      if c = sep then [] :: splitOnChar sep s
      else
        match splitOnChar sep s with
        | [] => [[c]]
        | seg :: segs => (c :: seg) :: segs := rfl

theorem splitOnChar_ne_nil (sep : Char) (s : JSString) : splitOnChar sep s ≠ [] := by
  induction s with
  | nil => simp [splitOnChar_nil]
  | cons c t ih =>
    rw [splitOnChar_cons]
    split
    · simp
    · cases hsp : splitOnChar sep t <;> simp

theorem splitOnChar_append (sep : Char) (xs ys : JSString) :
    splitOnChar sep (xs ++ sep :: ys) = splitOnChar sep xs ++ splitOnChar sep ys := by
  induction xs with
  | nil => simp [splitOnChar_nil, splitOnChar_cons]
  | cons c xs ih =>
    rw [List.cons_append, splitOnChar_cons, splitOnChar_cons sep c xs]
    by_cases hc : c = sep
    · rw [if_pos hc, if_pos hc, ih, List.cons_append]
    · rw [if_neg hc, if_neg hc, ih]
      cases hxs : splitOnChar sep xs with
      | nil => exact absurd hxs (splitOnChar_ne_nil sep xs)
      | cons seg segs => simp

theorem splitOnChar_no_sep (sep : Char) (s : JSString) (h : ∀ c ∈ s, c ≠ sep) :
    splitOnChar sep s = [s] := by
  induction s with
  | nil => rfl
  | cons c t ih =>
    rw [splitOnChar_cons, if_neg (h c (List.mem_cons_self c t)),
      ih fun c hc => h c (List.mem_cons_of_mem _ hc)]

theorem jsTrim_eq_self (s : JSString) (h : ∀ c ∈ s, c.isWhitespace = false) :
    jsTrim s = s := by
  have h1 : s.dropWhile Char.isWhitespace = s := by
    cases s with
    | nil => rfl
    | cons c t =>
      exact List.dropWhile_cons_of_neg (by simp [h c (List.mem_cons_self c t)])
  rw [jsTrim, h1]
  have h2 : s.reverse.dropWhile Char.isWhitespace = s.reverse := by
    cases hs : s.reverse with
    | nil => rfl
    | cons c t =>
      refine List.dropWhile_cons_of_neg ?_
      have hc : c ∈ s := by
        rw [← List.mem_reverse, hs]
        exact List.mem_cons_self c t
      simp [h c hc]
  rw [h2, List.reverse_reverse]

theorem parsePart_numToken (maxPage : ℤ) (acc : Finset ℤ) {a : ℤ}
    (h1 : 1 ≤ a) (h2 : a ≤ maxPage) :
    parsePart maxPage acc (intToDecimal a) = insert a acc := by
  have hnodash : '-' ∉ intToDecimal a := fun hmem =>
    (intToDecimal_char_facts (by omega) '-' hmem).2.2.1 rfl
  rw [parsePart, if_neg hnodash, jsParseInt_intToDecimal (by omega)]
  show (if 1 ≤ a ∧ a ≤ maxPage then insert a acc else acc) = insert a acc
  exact if_pos ⟨h1, h2⟩

theorem parsePart_rangeToken (maxPage : ℤ) (acc : Finset ℤ) {a b : ℤ}
    (h1 : 1 ≤ a) (h1b : 1 ≤ b) (h2 : b ≤ maxPage) :
    parsePart maxPage acc (intToDecimal a ++ '-' :: intToDecimal b) =
      acc ∪ Finset.Icc a b := by
  have ha0 : (0 : ℤ) ≤ a := by omega
  have hb0 : (0 : ℤ) ≤ b := by omega
  have hsplit : splitOnChar '-' (intToDecimal a ++ '-' :: intToDecimal b) =
      [intToDecimal a, intToDecimal b] := by
    rw [splitOnChar_append,
      splitOnChar_no_sep _ _ (fun c hc => (intToDecimal_char_facts ha0 c hc).2.2.1),
      splitOnChar_no_sep _ _ (fun c hc => (intToDecimal_char_facts hb0 c hc).2.2.1)]
    rfl
  have hmap : ((splitOnChar '-' (intToDecimal a ++ '-' :: intToDecimal b)).map jsTrim) =
      [intToDecimal a, intToDecimal b] := by
    rw [hsplit]
    simp only [List.map_cons, List.map_nil,
      jsTrim_eq_self _ (fun c hc => (intToDecimal_char_facts ha0 c hc).1),
      jsTrim_eq_self _ (fun c hc => (intToDecimal_char_facts hb0 c hc).1)]
  have hdash : '-' ∈ intToDecimal a ++ '-' :: intToDecimal b := by simp
  rw [parsePart, if_pos hdash, hmap]
  simp only [List.headD_cons, List.drop_succ_cons, List.drop_zero]
  rw [if_neg (intToDecimal_ne_nil ha0), if_neg (intToDecimal_ne_nil hb0),
    jsParseInt_intToDecimal ha0, jsParseInt_intToDecimal hb0]
  show acc ∪ Finset.Icc (max 1 a) (min maxPage b) = acc ∪ Finset.Icc a b
  rw [max_eq_right h1, min_eq_right h2]

theorem parsePart_union (maxPage : ℤ) (acc : Finset ℤ) (t : JSString) :
    parsePart maxPage acc t = acc ∪ parsePart maxPage ∅ t := by
  rw [parsePart, parsePart]
  by_cases hdash : '-' ∈ t
  · rw [if_pos hdash, if_pos hdash]
    split <;> simp
  · rw [if_neg hdash, if_neg hdash]
    split
    · split_ifs <;> simp [Finset.insert_eq, Finset.union_comm]
    · simp

theorem foldl_parsePart_union (maxPage : ℤ) (parts : List JSString) :
    ∀ acc : Finset ℤ, parts.foldl (parsePart maxPage) acc =
      acc ∪ parts.foldl (parsePart maxPage) ∅ := by
  induction parts with
  | nil => intro acc; simp
  | cons t rest ih =>
    intro acc
    rw [List.foldl_cons, List.foldl_cons, ih (parsePart maxPage acc t),
      ih (parsePart maxPage ∅ t), parsePart_union maxPage acc t, Finset.union_assoc]

theorem foldl_parsePart_append (maxPage : ℤ) (ts us : List JSString) :
    (ts ++ us).foldl (parsePart maxPage) ∅ =
      ts.foldl (parsePart maxPage) ∅ ∪ us.foldl (parsePart maxPage) ∅ := by
  rw [List.foldl_append, foldl_parsePart_union]

theorem chunkTokens_parsed (maxPage : ℤ) {st en : ℤ}
    (h1 : 1 ≤ st) (h2 : st ≤ en) (h3 : en ≤ maxPage) :
    (splitOnChar ',' (chunkStr st en)).foldl (parsePart maxPage) ∅ =
      Finset.Icc st en := by
  rw [chunkStr]
  by_cases hse : st = en
  · subst hse
    rw [if_pos rfl,
      splitOnChar_no_sep _ _ (fun c hc => (intToDecimal_char_facts (by omega) c hc).2.1),
      List.foldl_cons, List.foldl_nil, parsePart_numToken maxPage ∅ h1 h3]
    ext y
    simp
  · rw [if_neg hse]
    by_cases hsucc : en = st + 1
    · rw [if_pos hsucc, splitOnChar_append,
        splitOnChar_no_sep _ _ (fun c hc => (intToDecimal_char_facts (by omega) c hc).2.1),
        splitOnChar_no_sep _ _ (fun c hc => (intToDecimal_char_facts (by omega) c hc).2.1)]
      show ([intToDecimal st] ++ [intToDecimal en]).foldl (parsePart maxPage) ∅ = _
      rw [List.singleton_append, List.foldl_cons, List.foldl_cons, List.foldl_nil,
        parsePart_numToken maxPage ∅ h1 (by omega),
        parsePart_numToken maxPage _ (by omega) h3]
      subst hsucc
      ext y
      simp [Finset.mem_Icc]
      omega
    · have hchars : ∀ c ∈ intToDecimal st ++ '-' :: intToDecimal en, c ≠ ',' := by
        intro c hc
        rcases List.mem_append.mp hc with h | h
        · exact (intToDecimal_char_facts (by omega) c h).2.1
        · rcases List.mem_cons.mp h with rfl | h
          · decide
          · exact (intToDecimal_char_facts (by omega) c h).2.1
      rw [if_neg hsucc, splitOnChar_no_sep _ _ hchars, List.foldl_cons, List.foldl_nil,
        parsePart_rangeToken maxPage ∅ h1 (by omega) h3, Finset.empty_union]

theorem buildRanges_parsed (maxPage : ℤ) :
    ∀ (rest : List ℤ) (st en : ℤ), 1 ≤ st → st ≤ en → en ≤ maxPage →
      List.Chain (· < ·) en rest → (∀ x ∈ rest, x ≤ maxPage) →
      (((buildRanges rest st en).map (splitOnChar ',')).flatten).foldl
          (parsePart maxPage) ∅ =
        Finset.Icc st en ∪ rest.toFinset := by
  intro rest
  induction rest with
  | nil =>
    intro st en h1 h2 h3 _ _
    rw [buildRanges]
    simp only [List.map_cons, List.map_nil, List.flatten_cons, List.flatten_nil,
      List.append_nil, List.toFinset_nil, Finset.union_empty]
    exact chunkTokens_parsed maxPage h1 h2 h3
  | cons x rest ih =>
    intro st en h1 h2 h3 hchain hb
    rw [List.chain_cons] at hchain
    obtain ⟨hlt, hchain'⟩ := hchain
    rw [buildRanges]
    by_cases hx : x = en + 1
    · rw [if_pos hx,
        ih st x h1 (by omega) (hb x (List.mem_cons_self _ _)) hchain'
          (fun y hy => hb y (List.mem_cons_of_mem _ hy))]
      subst hx
      ext y
      simp only [Finset.mem_union, Finset.mem_Icc, List.toFinset_cons,
        Finset.mem_insert, List.mem_toFinset]
      constructor
      · rintro (⟨hy1, hy2⟩ | hy)
        · by_cases hy3 : y = en + 1
          · exact Or.inr (Or.inl hy3)
          · exact Or.inl ⟨hy1, by omega⟩
        · exact Or.inr (Or.inr hy)
      · rintro (⟨hy1, hy2⟩ | rfl | hy)
        · exact Or.inl ⟨hy1, by omega⟩
        · exact Or.inl ⟨by omega, le_refl _⟩
        · exact Or.inr hy
    · rw [if_neg hx]
      simp only [List.map_cons, List.flatten_cons]
      rw [foldl_parsePart_append, chunkTokens_parsed maxPage h1 h2 h3,
        ih x x (by omega) (le_refl x) (hb x (List.mem_cons_self _ _)) hchain'
          (fun y hy => hb y (List.mem_cons_of_mem _ hy)),
        Finset.Icc_self, List.toFinset_cons, Finset.insert_eq]

theorem chunkStr_char_facts {st en : ℤ} (h1 : 1 ≤ st) (h2 : 1 ≤ en) :
    ∀ c ∈ chunkStr st en, c.isWhitespace = false := by
  intro c hc
  rw [chunkStr] at hc
  split at hc
  · exact (intToDecimal_char_facts (by omega) c hc).1
  · split at hc
    · rcases List.mem_append.mp hc with h | h
      · exact (intToDecimal_char_facts (by omega) c h).1
      · rcases List.mem_cons.mp h with rfl | h
        · decide
        · exact (intToDecimal_char_facts (by omega) c h).1
    · rcases List.mem_append.mp hc with h | h
      · exact (intToDecimal_char_facts (by omega) c h).1
      · rcases List.mem_cons.mp h with rfl | h
        · decide
        · exact (intToDecimal_char_facts (by omega) c h).1

theorem chunkStr_ne_nil {st en : ℤ} (h1 : 1 ≤ st) : chunkStr st en ≠ [] := by
  rw [chunkStr]
  split
  · exact intToDecimal_ne_nil (by omega)
  · split
    · simp [List.append_eq_nil]
    · simp [List.append_eq_nil]

theorem buildRanges_ne_nil : ∀ (rest : List ℤ) (st en : ℤ),
    buildRanges rest st en ≠ [] := by
  intro rest
  induction rest with
  | nil => intro st en; simp [buildRanges]
  | cons x rest ih =>
    intro st en
    rw [buildRanges]
    split
    · exact ih st x
    · simp

theorem buildRanges_chunk_facts :
    ∀ (rest : List ℤ) (st en : ℤ), 1 ≤ st → st ≤ en →
      List.Chain (· < ·) en rest →
      ∀ t ∈ buildRanges rest st en,
        t ≠ [] ∧ ∀ c ∈ t, c.isWhitespace = false := by
  intro rest
  induction rest with
  | nil =>
    intro st en h1 h2 _ t ht
    rw [buildRanges, List.mem_singleton] at ht
    subst ht
    exact ⟨chunkStr_ne_nil h1, chunkStr_char_facts h1 (by omega)⟩
  | cons x rest ih =>
    intro st en h1 h2 hchain t ht
    rw [List.chain_cons] at hchain
    obtain ⟨hlt, hchain'⟩ := hchain
    rw [buildRanges] at ht
    split at ht
    · exact ih st x h1 (by omega) hchain' t ht
    · rcases List.mem_cons.mp ht with rfl | ht
      · exact ⟨chunkStr_ne_nil h1, chunkStr_char_facts h1 (by omega)⟩
      · exact ih x x (by omega) (le_refl x) hchain' t ht

theorem joinWith_ne_nil (sep : Char) (chunks : List JSString) (hne : chunks ≠ [])
    (hts : ∀ t ∈ chunks, t ≠ []) : joinWith sep chunks ≠ [] := by
  cases chunks with
  | nil => exact absurd rfl hne
  | cons s rest =>
    cases rest with
    | nil => exact hts s (List.mem_cons_self _ _)
    | cons r rest2 =>
      rw [joinWith_cons₂]
      simp [List.append_eq_nil]

theorem joinWith_chars (sep : Char) (hsep : sep.isWhitespace = false) :
    ∀ chunks : List JSString, (∀ t ∈ chunks, ∀ c ∈ t, c.isWhitespace = false) →
      ∀ c ∈ joinWith sep chunks, c.isWhitespace = false := by
  intro chunks
  induction chunks with
  | nil => intro _ c hc; cases hc
  | cons s rest ih =>
    intro h c hc
    cases rest with
    | nil => exact h s (List.mem_cons_self _ _) c hc
    | cons r rest2 =>
      rw [joinWith_cons₂] at hc
      rcases List.mem_append.mp hc with h' | h'
      · exact h s (List.mem_cons_self _ _) c h'
      · rcases List.mem_cons.mp h' with rfl | h'
        · exact hsep
        · exact ih (fun t ht => h t (List.mem_cons_of_mem _ ht)) c h'

theorem splitOnChar_joinWith (sep : Char) :
    ∀ chunks : List JSString, chunks ≠ [] →
      splitOnChar sep (joinWith sep chunks) =
        (chunks.map (splitOnChar sep)).flatten := by
  intro chunks
  induction chunks with
  | nil => intro h; exact absurd rfl h
  | cons s rest ih =>
    intro _
    cases rest with
    | nil => simp [joinWith]
    | cons r rest2 =>
      rw [joinWith_cons₂, splitOnChar_append, ih (by simp)]
      simp

theorem map_eq_self_of_eq (f : JSString → JSString) :
    ∀ l : List JSString, (∀ t ∈ l, f t = t) → l.map f = l := by
  intro l h
  induction l with
  | nil => rfl
  | cons t rest ih =>
    rw [List.map_cons, h t (List.mem_cons_self _ _),
      ih fun u hu => h u (List.mem_cons_of_mem _ hu)]

theorem chunkStr_tokens_facts {st en : ℤ} (h1 : 1 ≤ st) (h2 : st ≤ en) :
    ∀ t ∈ splitOnChar ',' (chunkStr st en),
      t ≠ [] ∧ ∀ c ∈ t, c.isWhitespace = false := by
  rw [chunkStr]
  by_cases hse : st = en
  · subst hse
    rw [if_pos rfl,
      splitOnChar_no_sep _ _ (fun c hc => (intToDecimal_char_facts (by omega) c hc).2.1)]
    intro t ht
    rw [List.mem_singleton] at ht
    subst ht
    exact ⟨intToDecimal_ne_nil (by omega),
      fun c hc => (intToDecimal_char_facts (by omega) c hc).1⟩
  · rw [if_neg hse]
    by_cases hsucc : en = st + 1
    · rw [if_pos hsucc, splitOnChar_append,
        splitOnChar_no_sep _ _ (fun c hc => (intToDecimal_char_facts (by omega) c hc).2.1),
        splitOnChar_no_sep _ _ (fun c hc => (intToDecimal_char_facts (by omega) c hc).2.1)]
      intro t ht
      rcases List.mem_append.mp ht with h | h <;> rw [List.mem_singleton] at h <;> subst h
      · exact ⟨intToDecimal_ne_nil (by omega),
          fun c hc => (intToDecimal_char_facts (by omega) c hc).1⟩
      · exact ⟨intToDecimal_ne_nil (by omega),
          fun c hc => (intToDecimal_char_facts (by omega) c hc).1⟩
    · have hchars : ∀ c ∈ intToDecimal st ++ '-' :: intToDecimal en, c ≠ ',' := by
        intro c hc
        rcases List.mem_append.mp hc with h | h
        · exact (intToDecimal_char_facts (by omega) c h).2.1
        · rcases List.mem_cons.mp h with rfl | h
          · decide
          · exact (intToDecimal_char_facts (by omega) c h).2.1
      rw [if_neg hsucc, splitOnChar_no_sep _ _ hchars]
      intro t ht
      rw [List.mem_singleton] at ht
      subst ht
      refine ⟨by simp [List.append_eq_nil], ?_⟩
      intro c hc
      rcases List.mem_append.mp hc with h | h
      · exact (intToDecimal_char_facts (by omega) c h).1
      · rcases List.mem_cons.mp h with rfl | h
        · decide
        · exact (intToDecimal_char_facts (by omega) c h).1

theorem buildRanges_tokens_facts :
    ∀ (rest : List ℤ) (st en : ℤ), 1 ≤ st → st ≤ en →
      List.Chain (· < ·) en rest →
      ∀ t ∈ ((buildRanges rest st en).map (splitOnChar ',')).flatten,
        t ≠ [] ∧ ∀ c ∈ t, c.isWhitespace = false := by
  intro rest
  induction rest with
  | nil =>
    intro st en h1 h2 _ t ht
    rw [buildRanges] at ht
    simp only [List.map_cons, List.map_nil, List.flatten_cons, List.flatten_nil,
      List.append_nil] at ht
    exact chunkStr_tokens_facts h1 h2 t ht
  | cons x rest ih =>
    intro st en h1 h2 hchain t ht
    rw [List.chain_cons] at hchain
    obtain ⟨hlt, hchain'⟩ := hchain
    rw [buildRanges] at ht
    split at ht
    · exact ih st x h1 (by omega) hchain' t ht
    · simp only [List.map_cons, List.flatten_cons] at ht
      rcases List.mem_append.mp ht with h | h
      · exact chunkStr_tokens_facts h1 h2 t h
      · exact ih x x (by omega) (le_refl x) hchain' t h

/-- C4: parsing a formatted page list recovers it exactly: for every
strictly ascending list `L` of positive pages with all entries `≤ maxPage`,
`parsePageExpr (formatPageRange L) maxPage = L`. -/
theorem formatPageRange_roundtrip (maxPage : ℤ) (L : List ℤ)
    (hsorted : List.Sorted (· < ·) L) (hpos : ∀ x ∈ L, 1 ≤ x)
    (hmax : ∀ x ∈ L, x ≤ maxPage) :
    parsePageExpr (formatPageRange L) maxPage = L := by
  cases L with
  | nil =>
    have h : formatPageRange [] = [] := by rw [formatPageRange, List.mergeSort_nil]
    rw [h]
    rfl
  | cons x rest =>
    have hsle : List.Sorted (· ≤ ·) (x :: rest) :=
      hsorted.imp fun h => le_of_lt h
    have hms : (x :: rest).mergeSort = x :: rest := List.mergeSort_eq_self hsle
    have hchain : List.Chain (· < ·) x rest := List.chain_iff_pairwise.mpr hsorted
    have h1 : 1 ≤ x := hpos x (List.mem_cons_self _ _)
    have hform : formatPageRange (x :: rest) = joinWith ',' (buildRanges rest x x) := by
      rw [formatPageRange, hms]
    have hchunkfacts := buildRanges_chunk_facts rest x x h1 (le_refl x) hchain
    have htokfacts := buildRanges_tokens_facts rest x x h1 (le_refl x) hchain
    have hexprchars : ∀ c ∈ joinWith ',' (buildRanges rest x x),
        c.isWhitespace = false :=
      joinWith_chars ',' (by decide) _ fun t ht => (hchunkfacts t ht).2
    have hexprne : joinWith ',' (buildRanges rest x x) ≠ [] :=
      joinWith_ne_nil ',' _ (buildRanges_ne_nil rest x x) fun t ht => (hchunkfacts t ht).1
    have htrim : jsTrim (joinWith ',' (buildRanges rest x x)) =
        joinWith ',' (buildRanges rest x x) := jsTrim_eq_self _ hexprchars
    have hmapid : (((buildRanges rest x x).map (splitOnChar ',')).flatten).map jsTrim =
        ((buildRanges rest x x).map (splitOnChar ',')).flatten :=
      map_eq_self_of_eq _ _ fun t ht => jsTrim_eq_self t (htokfacts t ht).2
    have hfiltid : (((buildRanges rest x x).map (splitOnChar ',')).flatten).filter
          (fun p => !p.isEmpty) =
        ((buildRanges rest x x).map (splitOnChar ',')).flatten := by
      refine List.filter_eq_self.mpr fun t ht => ?_
      have : t ≠ [] := (htokfacts t ht).1
      cases t with
      | nil => exact absurd rfl this
      | cons c u => rfl
    rw [hform, parsePageExpr, if_neg (by rw [htrim]; exact hexprne),
      splitOnChar_joinWith ',' _ (buildRanges_ne_nil rest x x), hmapid, hfiltid,
      buildRanges_parsed maxPage rest x x h1 (le_refl x)
        (hmax x (List.mem_cons_self _ _)) hchain
        (fun y hy => hmax y (List.mem_cons_of_mem _ hy)),
      Finset.Icc_self]
    have hset : ({x} : Finset ℤ) ∪ rest.toFinset = (x :: rest).toFinset := by
      rw [List.toFinset_cons, Finset.insert_eq]
    rw [hset]
    exact (List.toFinset_sort (· ≤ ·) hsorted.nodup).mpr hsle

/-- Witness for `formatPageRange_roundtrip`: the list `[1, 2, 3, 5, 7, 8]`
(a three-run, a singleton and a two-run) with `maxPage = 10`. -/
theorem formatPageRange_roundtrip_witness :
    parsePageExpr (formatPageRange [1, 2, 3, 5, 7, 8]) 10 = [1, 2, 3, 5, 7, 8] :=
  formatPageRange_roundtrip 10 [1, 2, 3, 5, 7, 8] (by decide) (by decide) (by decide)

end FreePDF
